import Mathlib

/-!
Verification development for the "bury N days" add-on (`src/bury_ndays.py`).

The durable bury store (SQLite table `buried (cid INTEGER PRIMARY KEY,
until INTEGER)`) is embedded as a list of `(cid, until)` rows; SQL
statements become list operations on those rows.  User-input parsing
(`parse_days_range`, which relies on Python `str.strip`, `str.split` and
`int`) is embedded character-by-character, including `int`'s own trimming
of whitespace around its argument and its acceptance of underscores
between digits.  Randomness (`random.randint`) is modelled by quantifying
over the drawn values, constrained to the sampled range.
-/

namespace BuryNDays

/-- A row of the `buried` table: `(cid, until)`. -/
abbrev Row := Int × Int

/-- The contents of the `buried` table. -/
abbrev Store := List Row

/-- `SECONDS_IN_DAY = 86400` from the source. -/
def SECONDS_IN_DAY : Int := 86400

/-- `init_db` creates the (empty) table if absent: the freshly created store. -/
def init_db : Store := []

/-- Store invariant guaranteed by `cid INTEGER PRIMARY KEY`: keys are distinct. -/
def Wf (s : Store) : Prop := (s.map Prod.fst).Nodup

/-- One `INSERT OR REPLACE INTO buried (cid, until) VALUES (?, ?)`:
the old row for `cid`, if any, is dropped and the new row inserted. -/
def upsert_row (s : Store) (cid untilTs : Int) : Store :=
  s.filter (fun r => r.1 != cid) ++ [(cid, untilTs)]

/-- `executemany` of `INSERT OR REPLACE`, applied row by row in order. -/
def upsert_many (s : Store) (data : List Row) : Store :=
  data.foldl (fun acc p => upsert_row acc p.1 p.2) s

/-- `SELECT cid FROM buried WHERE until > ?` with `? = now`
(the query inside `reapply_buries`). -/
def select_active (s : Store) (now : Int) : List Int :=
  (s.filter (fun r => now < r.2)).map Prod.fst

/-- `cleanup_expired`: `DELETE FROM buried WHERE until <= ?` with `? = now`. -/
def cleanup_expired (s : Store) (now : Int) : Store :=
  s.filter (fun r => !(r.2 ≤ now : Bool))

/-- `mark_cards_as_n_buried`: for the i-th cid the drawn day count `draws[i]`
(each draw is `random.randint(low, high)`) gives the row
`(cid, now + draws[i] * SECONDS_IN_DAY)`; the rows are written with
`executemany INSERT OR REPLACE`. -/
def mark_cards_as_n_buried (s : Store) (cids : List Int) (draws : List Int)
    (now : Int) : Store :=
  upsert_many s (List.zipWith (fun cid d => (cid, now + d * SECONDS_IN_DAY)) cids draws)

/-- Result of one run of `reapply_buries`: the cids passed to the host
scheduler's bury call (`[]` when no call is issued) and the store afterwards. -/
structure ReconcileResult where
  instructed : List Int
  store : Store
  deriving Repr, DecidableEq

/-- The host's set of currently-buried cards after a bury call: the call only
adds cards to the buried set (`bury_cards` / `sched.bury_cards`), it never
removes any. -/
def bury_host (host instr : List Int) : List Int := host ++ instr

/-- `reapply_buries`: select the still-active rows, issue a host bury call for
exactly those cids when there are any, and with the `random.randint(1, 10)`
draw equal to 1 run `cleanup_expired`. -/
def reapply_buries (s : Store) (now draw : Int) : ReconcileResult :=
  { instructed := if select_active s now = [] then [] else select_active s now
    store := if draw = 1 then cleanup_expired s now else s }

/-- The three hook registrations at module bottom: `profileLoaded`,
`sync_will_start` and `sync_did_finish` each invoke `reapply_buries`. -/
inductive Trigger where
  | appStart
  | syncStart
  | syncFinish
  deriving Repr, DecidableEq

/-- Dispatch of a lifecycle trigger to the registered handler. -/
def on_trigger (tr : Trigger) (s : Store) (now draw : Int) : ReconcileResult :=
  match tr with
  | .appStart => reapply_buries s now draw
  | .syncStart => reapply_buries s now draw
  | .syncFinish => reapply_buries s now draw

/-- ASCII whitespace stripped by Python `str.strip()` and `int()`. -/
def isWs (c : Char) : Bool :=
  c == ' ' || c == '\t' || c == '\n' || c == '\r' || c == '\x0b' || c == '\x0c'

/-- Python `str.strip()` on a character list. -/
def pyStrip (cs : List Char) : List Char :=
  ((cs.dropWhile isWs).reverse.dropWhile isWs).reverse

/-- ASCII decimal digit. -/
def isDig (c : Char) : Bool := 48 ≤ c.toNat && c.toNat ≤ 57

/-- Numeric value of an ASCII digit. -/
def charVal (c : Char) : Nat := c.toNat - 48

/-- Digits of Python's `int` after the first digit: each further character is
a digit, or an underscore that must sit between two digits (`prevDigit` says
whether the previous character was a digit). -/
def pyDigitsCore (prevDigit : Bool) (acc : Nat) : List Char → Option Nat
  | [] => if prevDigit then some acc else none
  | c :: rest =>
    if isDig c then pyDigitsCore true (acc * 10 + charVal c) rest
    else if c = '_' ∧ prevDigit = true then pyDigitsCore false acc rest
    else none

/-- Digit part of Python's `int`: nonempty, must start with a digit. -/
def pyDigitsChars (cs : List Char) : Option Nat :=
  match cs with
  | [] => none
  | c :: rest => if isDig c then pyDigitsCore true (charVal c) rest else none

/-- Sign-and-digit part of Python's `int`, applied after its whitespace trim. -/
def pyIntStripped : List Char → Option Int
  | [] => none
  | c :: rest =>
    if c = '+' then (pyDigitsChars rest).map (fun n => (n : Int))
    else if c = '-' then (pyDigitsChars rest).map (fun n => -(n : Int))
    else (pyDigitsChars (c :: rest)).map (fun n => (n : Int))

/-- Python `int(str)`: strip whitespace, optional sign, digit part;
`none` models the `ValueError` caught by `parse_days_range`. -/
def pythonInt (cs0 : List Char) : Option Int :=
  pyIntStripped (pyStrip cs0)

/-- First component of `text.split("-", 1)`: everything before the first dash. -/
def lowTok (t : List Char) : List Char := t.takeWhile (fun c => c != '-')

/-- Second component of `text.split("-", 1)`: everything after the first dash. -/
def highTok (t : List Char) : List Char := t.drop ((lowTok t).length + 1)

/-- `parse_days_range`: strip the input; with a dash, split once and convert
both tokens with `int`, rejecting when the first exceeds the second; without a
dash convert the whole text; finally reject a low bound below 1.  `none`
models returning Python `None`. -/
def parse_days_range (text : String) : Option (Int × Int) :=
  if '-' ∈ pyStrip text.data then
    match pythonInt (lowTok (pyStrip text.data)), pythonInt (highTok (pyStrip text.data)) with
    | some lv, some hv =>
      if hv < lv then none
      else if lv < 1 then none
      else some (lv, hv)
    | _, _ => none
  else
    match pythonInt (pyStrip text.data) with
    | none => none
    | some v => if v < 1 then none else some (v, v)

/-- `ask_days_range`: the list holds the successive `(text, ok)` results of the
input dialog; a cancelled dialog or blank text returns `None` at once,
invalid text re-prompts (warning box, next response), valid text is returned. -/
def ask_days_range : List (String × Bool) → Option (Int × Int)
  | [] => none
  | (text, ok) :: rest =>
    if ok = false ∨ pyStrip text.data = [] then none
    else
      match parse_days_range text with
      | some dr => some dr
      | none => ask_days_range rest

/-- Outcome of `bury_cards_ui`: the store afterwards and the cids passed to the
host's `bury_cards` operation (`[]` when the action aborted before it). -/
structure BuryOutcome where
  store : Store
  hostBuried : List Int
  deriving Repr, DecidableEq

/-- `bury_cards_ui`: abort on empty selection; abort when the prompt returns
`None`; otherwise persist via `mark_cards_as_n_buried` and then ask the host
to bury the same cids. -/
def bury_cards_ui (s : Store) (cids : List Int) (responses : List (String × Bool))
    (now : Int) (draws : List Int) : BuryOutcome :=
  if cids = [] then { store := s, hostBuried := [] }
  else
    match ask_days_range responses with
    | none => { store := s, hostBuried := [] }
    | some _ => { store := mark_cards_as_n_buried s cids draws now, hostBuried := cids }

/-- Decimal rendering of a natural number (the canonical digit string). -/
def natRepr (n : Nat) : List Char :=
  if h : n < 10 then [Char.ofNat (48 + n)]
  else natRepr (n / 10) ++ [Char.ofNat (48 + n % 10)]
decreasing_by
  exact Nat.div_lt_self (by omega) (by omega)

/-! ### Lookup lemmas for the store -/

theorem lookup_append (a : Int) (l1 l2 : List Row) :
    List.lookup a (l1 ++ l2) = (List.lookup a l1).or (List.lookup a l2) := by
  induction l1 with
  | nil => simp [List.lookup]
  | cons p t ih =>
    obtain ⟨k, v⟩ := p
    by_cases h : a = k
    · simp [List.lookup, h]
    · have h1 : (a == k) = false := by simp [h]
      simp [List.lookup, h1, ih]

theorem lookup_filter_ne {a c : Int} (h : a ≠ c) (s : Store) :
    List.lookup a (s.filter (fun r => r.1 != c)) = List.lookup a s := by
  induction s with
  | nil => rfl
  | cons p t ih =>
    obtain ⟨k, v⟩ := p
    by_cases hk : k = c
    · subst hk
      have hak : (a == k) = false := by simp [h]
      simp [List.filter_cons, List.lookup, hak, ih]
    · by_cases hak : a = k
      · subst hak
        simp [List.filter_cons, hk, List.lookup]
      · have h1 : (a == k) = false := by simp [hak]
        simp [List.filter_cons, hk, List.lookup, h1, ih]

theorem lookup_filter_self (c : Int) (s : Store) :
    List.lookup c (s.filter (fun r => r.1 != c)) = none := by
  induction s with
  | nil => rfl
  | cons p t ih =>
    obtain ⟨k, v⟩ := p
    by_cases hk : k = c
    · simp [List.filter_cons, hk, ih]
    · have h1 : (c == k) = false := by
        simp only [beq_eq_false_iff_ne, ne_eq]
        exact fun h => hk h.symm
      simp [List.filter_cons, hk, List.lookup, h1, ih]

theorem lookup_upsert (a c t : Int) (s : Store) :
    List.lookup a (upsert_row s c t) = if a = c then some t else List.lookup a s := by
  unfold upsert_row
  rw [lookup_append]
  by_cases h : a = c
  · subst h
    simp [lookup_filter_self, List.lookup]
  · have h1 : (a == c) = false := by simp [h]
    simp [lookup_filter_ne h, List.lookup, h1, h]

theorem upsert_many_cons (s : Store) (k v : Int) (rest : List Row) :
    upsert_many s ((k, v) :: rest) = upsert_many (upsert_row s k v) rest := rfl

theorem lookup_upsert_many (data : List Row) (s : Store) (a : Int) :
    List.lookup a (upsert_many s data)
      = (List.lookup a data.reverse).or (List.lookup a s) := by
  induction data generalizing s with
  | nil => simp [upsert_many, List.lookup]
  | cons p rest ih =>
    obtain ⟨k, v⟩ := p
    rw [upsert_many_cons, ih, List.reverse_cons, lookup_append]
    rw [Option.or_assoc]
    congr 1
    rw [lookup_upsert]
    by_cases h : a = k
    · simp [List.lookup, h]
    · have h1 : (a == k) = false := by simp [h]
      simp [List.lookup, h1, h]

theorem lookup_some_mem {a b : Int} {l : List Row} (h : List.lookup a l = some b) :
    (a, b) ∈ l := by
  induction l with
  | nil => simp [List.lookup] at h
  | cons p t ih =>
    obtain ⟨k, v⟩ := p
    by_cases hk : a = k
    · subst hk
      simp [List.lookup] at h
      simp [h]
    · have h1 : (a == k) = false := by simp [hk]
      simp [List.lookup, h1] at h
      exact List.mem_cons_of_mem _ (ih h)

theorem lookup_isSome_of_mem_keys {a : Int} {l : List Row}
    (h : a ∈ l.map Prod.fst) : ∃ b, List.lookup a l = some b := by
  induction l with
  | nil => simp at h
  | cons p t ih =>
    obtain ⟨k, v⟩ := p
    by_cases hk : a = k
    · subst hk
      exact ⟨v, by simp [List.lookup]⟩
    · have h1 : (a == k) = false := by simp [hk]
      simp only [List.map_cons, List.mem_cons] at h
      rcases h with h | h
      · exact absurd h hk
      · obtain ⟨b, hb⟩ := ih h
        exact ⟨b, by simp [List.lookup, h1, hb]⟩

/-! ### Well-formedness (primary key) lemmas -/

theorem Wf_init_db : Wf init_db := by simp [Wf, init_db]

theorem Wf_upsert {s : Store} (hs : Wf s) (c t : Int) : Wf (upsert_row s c t) := by
  unfold Wf upsert_row
  rw [List.map_append]
  refine List.Nodup.append ?_ (by simp) ?_
  · exact ((List.filter_sublist s).map Prod.fst).nodup hs
  · intro a ha hb
    simp at hb
    subst hb
    obtain ⟨r, hr, hfst⟩ := List.mem_map.mp ha
    have := (List.mem_filter.mp hr).2
    simp [hfst] at this

theorem Wf_upsert_many {s : Store} (hs : Wf s) (data : List Row) :
    Wf (upsert_many s data) := by
  induction data generalizing s with
  | nil => exact hs
  | cons p rest ih =>
    obtain ⟨k, v⟩ := p
    rw [upsert_many_cons]
    exact ih (Wf_upsert hs k v)

theorem Wf_cleanup {s : Store} (hs : Wf s) (now : Int) : Wf (cleanup_expired s now) := by
  unfold Wf cleanup_expired
  exact ((List.filter_sublist s).map Prod.fst).nodup hs

theorem Wf_mark {s : Store} (hs : Wf s) (cids draws : List Int) (now : Int) :
    Wf (mark_cards_as_n_buried s cids draws now) := by
  exact Wf_upsert_many hs _

theorem upsert_upsert (s : Store) (c t1 t2 : Int) :
    upsert_row (upsert_row s c t1) c t2 = upsert_row s c t2 := by
  unfold upsert_row
  rw [List.filter_append]
  simp

/-! ### Membership characterizations of the queries -/

theorem mem_select_active (s : Store) (now c : Int) :
    c ∈ select_active s now ↔ ∃ u, (c, u) ∈ s ∧ now < u := by
  unfold select_active
  constructor
  · intro h
    obtain ⟨r, hr, hfst⟩ := List.mem_map.mp h
    obtain ⟨hmem, hlt⟩ := List.mem_filter.mp hr
    exact ⟨r.2, by simpa [← hfst] using hmem, by simpa using hlt⟩
  · rintro ⟨u, hmem, hlt⟩
    exact List.mem_map.mpr ⟨(c, u), List.mem_filter.mpr ⟨hmem, by simpa using hlt⟩, rfl⟩

theorem mem_cleanup_expired (s : Store) (now : Int) (r : Row) :
    r ∈ cleanup_expired s now ↔ r ∈ s ∧ now < r.2 := by
  unfold cleanup_expired
  rw [List.mem_filter]
  simp

/-! ### zipWith helpers for the bury write -/

theorem map_fst_zipWith (now : Int) (cids draws : List Int)
    (h : draws.length = cids.length) :
    (List.zipWith (fun cid d => (cid, now + d * SECONDS_IN_DAY)) cids draws).map Prod.fst
      = cids := by
  induction cids generalizing draws with
  | nil => simp
  | cons c t ih =>
    cases draws with
    | nil => simp at h
    | cons d dt =>
      simp only [List.length_cons, Nat.succ.injEq] at h
      simp [ih dt h]

theorem mem_zipWith_pair {f : Int → Int → Row} {x : Row} {as bs : List Int}
    (h : x ∈ List.zipWith f as bs) : ∃ a b, a ∈ as ∧ b ∈ bs ∧ x = f a b := by
  induction as generalizing bs with
  | nil => simp at h
  | cons a t ih =>
    cases bs with
    | nil => simp at h
    | cons b bt =>
      simp only [List.zipWith_cons_cons, List.mem_cons] at h
      rcases h with h | h
      · exact ⟨a, b, by simp, by simp, h⟩
      · obtain ⟨a1, b1, ha, hb, hx⟩ := ih h
        exact ⟨a1, b1, by simp [ha], by simp [hb], hx⟩

theorem mem_upsert_self (s : Store) (c t u : Int) :
    (c, u) ∈ upsert_row s c t ↔ u = t := by
  unfold upsert_row
  rw [List.mem_append]
  constructor
  · rintro (h | h)
    · have := (List.mem_filter.mp h).2
      simp at this
    · simpa using h
  · rintro rfl
    simp

theorem filter_key_upsert (s : Store) (c t : Int) :
    (upsert_row s c t).filter (fun r => r.1 == c) = [(c, t)] := by
  unfold upsert_row
  rw [List.filter_append]
  have h1 : (s.filter (fun r => r.1 != c)).filter (fun r => r.1 == c) = [] := by
    induction s with
    | nil => rfl
    | cons p tl ih =>
      obtain ⟨k, v⟩ := p
      by_cases hk : k = c
      · simp [List.filter_cons, hk, ih]
      · have hb : (k == c) = false := by simp [hk]
        simp [List.filter_cons, bne, hb, ih]
  rw [h1]
  simp

/-! ### Claim theorems (C1, C2, C3, C4, C5, C10) -/

/-- C1: on each reconciliation trigger (app start, sync start, sync finish),
when the set of active records is non-empty the reconciler instructs the host
scheduler to bury exactly those card ids, it issues no host call otherwise,
and it never clears any card's buried status: every card buried before the
reconciler ran is still buried afterwards. -/
theorem reconciler_asserts_exactly_active (tr : Trigger) (s : Store) (now draw : Int)
    (host : List Int) :
    (select_active s now ≠ [] →
      (on_trigger tr s now draw).instructed = select_active s now) ∧
    (select_active s now = [] → (on_trigger tr s now draw).instructed = []) ∧
    (∀ c, c ∈ host → c ∈ bury_host host (on_trigger tr s now draw).instructed) := by
  cases tr <;>
    exact ⟨fun h => by simp [on_trigger, reapply_buries, h],
           fun h => by simp [on_trigger, reapply_buries, h],
           fun c hc => by simp [bury_host, hc]⟩

/-- Closed instance of `reconciler_asserts_exactly_active`. -/
theorem reconciler_asserts_exactly_active_witness :
    select_active [((7 : Int), (10 : Int))] 0 ≠ [] ∧
    (on_trigger Trigger.appStart [((7 : Int), (10 : Int))] 0 2).instructed
      = select_active [((7 : Int), (10 : Int))] 0 ∧
    (3 : Int) ∈ bury_host [3]
      (on_trigger Trigger.appStart [((7 : Int), (10 : Int))] 0 2).instructed := by
  refine ⟨by decide, ?_, ?_⟩
  · exact (reconciler_asserts_exactly_active Trigger.appStart
      [((7 : Int), (10 : Int))] 0 2 [3]).1 (by decide)
  · exact (reconciler_asserts_exactly_active Trigger.appStart
      [((7 : Int), (10 : Int))] 0 2 [3]).2.2 3 (by decide)

/-- C2: `select_active now` returns exactly the card ids whose record has
`until > now`; a record with `until = now` is excluded (shown both by the
strict bound in the characterization and on the boundary store itself). -/
theorem select_active_exact (s : Store) (now c : Int) :
    (c ∈ select_active s now ↔ ∃ u, (c, u) ∈ s ∧ now < u) ∧
    select_active [(c, now)] now = [] := by
  refine ⟨mem_select_active s now c, ?_⟩
  simp [select_active]

/-- C3: `delete_expired now` (`cleanup_expired`) removes exactly the rows with
`until ≤ now`: a row survives iff it was present with `until > now`, and the
surviving rows are carried over verbatim (a sublist of the original rows). -/
theorem delete_expired_exact (s : Store) (now : Int) (r : Row) :
    (r ∈ cleanup_expired s now ↔ r ∈ s ∧ now < r.2) ∧
    List.Sublist (cleanup_expired s now) s :=
  ⟨mem_cleanup_expired s now r, List.filter_sublist s⟩

/-- C4: the "at most one record per card id" invariant holds for the fresh
store and is preserved by every store operation, and upsert is
last-write-wins: after two upserts of card `c` the store holds exactly the
row `(c, t2)` for `c`, lookup yields `t2`, and `select_active` reflects only
`t2` for `c`. -/
theorem store_invariant_last_write_wins (s : Store) (hs : Wf s)
    (c t1 t2 now : Int) (data : List Row) (cids draws : List Int) :
    Wf init_db ∧
    Wf (upsert_row s c t1) ∧
    Wf (upsert_many s data) ∧
    Wf (cleanup_expired s now) ∧
    Wf (mark_cards_as_n_buried s cids draws now) ∧
    (upsert_row (upsert_row s c t1) c t2).filter (fun r => r.1 == c) = [(c, t2)] ∧
    List.lookup c (upsert_row (upsert_row s c t1) c t2) = some t2 ∧
    (c ∈ select_active (upsert_row (upsert_row s c t1) c t2) now ↔ now < t2) := by
  refine ⟨Wf_init_db, Wf_upsert hs c t1, Wf_upsert_many hs data, Wf_cleanup hs now,
    Wf_mark hs cids draws now, ?_, ?_, ?_⟩
  · rw [upsert_upsert]
    exact filter_key_upsert s c t2
  · rw [upsert_upsert, lookup_upsert]
    simp
  · rw [upsert_upsert, mem_select_active]
    constructor
    · rintro ⟨u, hm, hu⟩
      rw [mem_upsert_self] at hm
      rwa [hm] at hu
    · intro h
      exact ⟨t2, (mem_upsert_self s c t2 t2).mpr rfl, h⟩

/-- Closed instance of `store_invariant_last_write_wins`. -/
theorem store_invariant_last_write_wins_witness :
    Wf [((1 : Int), (5 : Int))] ∧
    List.lookup (2 : Int) (upsert_row (upsert_row [((1 : Int), (5 : Int))] 2 7) 2 9)
      = some 9 := by
  refine ⟨by unfold Wf; decide, ?_⟩
  exact (store_invariant_last_write_wins [((1 : Int), (5 : Int))] (by unfold Wf; decide)
    2 7 9 0 [] [] []).2.2.2.2.2.2.1

/-- C5: with each drawn day count in `[low, high]` (as `random.randint`
guarantees), the bury write gives every selected card a record whose expiry is
`now + d * 86400` for some in-range `d`; with `low = high` every selected card
gets exactly `now + low * 86400`. -/
theorem bury_writes_sampled_until (s : Store) (cids draws : List Int)
    (low high now : Int) (h1 : 1 ≤ low) (h2 : low ≤ high) (hne : cids ≠ [])
    (hlen : draws.length = cids.length)
    (hd : ∀ d ∈ draws, low ≤ d ∧ d ≤ high) :
    (∀ c ∈ cids, ∃ d, low ≤ d ∧ d ≤ high ∧
      List.lookup c (mark_cards_as_n_buried s cids draws now)
        = some (now + d * SECONDS_IN_DAY)) ∧
    (low = high → ∀ c ∈ cids,
      List.lookup c (mark_cards_as_n_buried s cids draws now)
        = some (now + low * SECONDS_IN_DAY)) := by
  have key : ∀ c ∈ cids, ∃ d, d ∈ draws ∧
      List.lookup c (mark_cards_as_n_buried s cids draws now)
        = some (now + d * SECONDS_IN_DAY) := by
    intro c hc
    have hkeys : (List.zipWith (fun cid d => (cid, now + d * SECONDS_IN_DAY)) cids draws).map
        Prod.fst = cids := map_fst_zipWith now cids draws hlen
    have hmemrev : c ∈ (List.zipWith (fun cid d => (cid, now + d * SECONDS_IN_DAY))
        cids draws).reverse.map Prod.fst := by
      rw [List.map_reverse, hkeys, List.mem_reverse]
      exact hc
    obtain ⟨b, hb⟩ := lookup_isSome_of_mem_keys hmemrev
    have hmem : (c, b) ∈ List.zipWith (fun cid d => (cid, now + d * SECONDS_IN_DAY))
        cids draws := List.mem_reverse.mp (lookup_some_mem hb)
    obtain ⟨a1, d1, _, hd1, hx⟩ := mem_zipWith_pair hmem
    have hbd : b = now + d1 * SECONDS_IN_DAY := by
      simpa using congrArg Prod.snd hx
    refine ⟨d1, hd1, ?_⟩
    unfold mark_cards_as_n_buried
    rw [lookup_upsert_many, hb, hbd]
    rfl
  constructor
  · intro c hc
    obtain ⟨d, hdm, hl⟩ := key c hc
    exact ⟨d, (hd d hdm).1, (hd d hdm).2, hl⟩
  · intro hlh c hc
    obtain ⟨d, hdm, hl⟩ := key c hc
    have : d = low := by
      have := hd d hdm
      omega
    rwa [this] at hl

/-- Closed instance of `bury_writes_sampled_until`: bury cards `[1,2,3]` for a
fixed 3 days at time 100. -/
theorem bury_writes_sampled_until_witness :
    (1 : Int) ≤ 3 ∧
    ∀ c ∈ [(1 : Int), 2, 3],
      List.lookup c (mark_cards_as_n_buried [] [1, 2, 3] [3, 3, 3] 100)
        = some (100 + 3 * SECONDS_IN_DAY) := by
  refine ⟨by decide, ?_⟩
  exact (bury_writes_sampled_until [] [1, 2, 3] [3, 3, 3] 3 3 100 (by decide)
    (by decide) (by decide) (by decide) (by decide)).2 rfl

/-- C10: a prompt answer that is empty or whitespace-only (with the dialog
confirmed, `ok = true`) makes `ask_days_range` return `None` at once —
regardless of any further answers, so no re-prompt happens — and the bury
action then aborts with the store unchanged and no host bury call. -/
theorem blank_input_cancels (text : String) (h : pyStrip text.data = [])
    (rest : List (String × Bool)) (s : Store) (cids : List Int) (now : Int)
    (draws : List Int) :
    ask_days_range ((text, true) :: rest) = none ∧
    (bury_cards_ui s cids ((text, true) :: rest) now draws).store = s ∧
    (bury_cards_ui s cids ((text, true) :: rest) now draws).hostBuried = [] := by
  have hask : ask_days_range ((text, true) :: rest) = none := by
    simp [ask_days_range, h]
  refine ⟨hask, ?_, ?_⟩ <;> by_cases hc : cids = [] <;>
    simp [bury_cards_ui, hask, hc]

/-- Closed instance of `blank_input_cancels`: a whitespace-only answer aborts
even though the next answer would be valid. -/
theorem blank_input_cancels_witness :
    pyStrip "  ".data = [] ∧
    ask_days_range [("  ", true), ("3", true)] = none ∧
    (bury_cards_ui [((1 : Int), (2 : Int))] [1] [("  ", true), ("3", true)] 0 [3]).store
      = [((1 : Int), (2 : Int))] := by
  refine ⟨by decide, ?_, ?_⟩
  · exact (blank_input_cancels "  " (by decide) [("3", true)]
      [((1 : Int), (2 : Int))] [1] 0 [3]).1
  · exact (blank_input_cancels "  " (by decide) [("3", true)]
      [((1 : Int), (2 : Int))] [1] 0 [3]).2.1

/-! ### Character classes -/

theorem not_ws_of_isDig {c : Char} (h : isDig c = true) : isWs c = false := by
  have hb : 48 ≤ c.toNat ∧ c.toNat ≤ 57 := by simpa [isDig] using h
  have hs : c ≠ ' ' := by rintro rfl; exact absurd hb (by decide)
  have ht : c ≠ '\t' := by rintro rfl; exact absurd hb (by decide)
  have hn : c ≠ '\n' := by rintro rfl; exact absurd hb (by decide)
  have hr : c ≠ '\r' := by rintro rfl; exact absurd hb (by decide)
  have hv : c ≠ '\x0b' := by rintro rfl; exact absurd hb (by decide)
  have hf : c ≠ '\x0c' := by rintro rfl; exact absurd hb (by decide)
  simp [isWs, hs, ht, hn, hr, hv, hf]

theorem ne_dash_of_isDig {c : Char} (h : isDig c = true) : c ≠ '-' := by
  rintro rfl; exact absurd h (by decide)

theorem ne_plus_of_isDig {c : Char} (h : isDig c = true) : c ≠ '+' := by
  rintro rfl; exact absurd h (by decide)

theorem ws_ne_dash {c : Char} (h : isWs c = true) : c ≠ '-' := by
  rintro rfl; exact absurd h (by decide)

/-! ### `pyStrip` lemmas -/

theorem dropWhile_append_all {p : Char → Bool} {l1 : List Char}
    (h : ∀ c ∈ l1, p c = true) (l2 : List Char) :
    List.dropWhile p (l1 ++ l2) = List.dropWhile p l2 := by
  induction l1 with
  | nil => rfl
  | cons a t ih =>
    rw [List.cons_append, List.dropWhile_cons_of_pos (h a (List.mem_cons_self a t))]
    exact ih fun c hc => h c (List.mem_cons_of_mem a hc)

theorem mem_of_head? {l : List Char} {c : Char} (h : l.head? = some c) : c ∈ l := by
  cases l with
  | nil => simp at h
  | cons a t =>
    rw [List.head?_cons, Option.some.injEq] at h
    rw [← h]
    exact List.mem_cons_self a t

theorem head?_append_left {l1 : List Char} (h : l1 ≠ []) (l2 : List Char) :
    (l1 ++ l2).head? = l1.head? := by
  cases l1 with
  | nil => exact absurd rfl h
  | cons a t => rfl

theorem pyStrip_sandwich (pre core post : List Char)
    (hpre : ∀ c ∈ pre, isWs c = true) (hpost : ∀ c ∈ post, isWs c = true)
    (hne : core ≠ [])
    (hh : ∀ c, core.head? = some c → isWs c = false)
    (hl : ∀ c, core.reverse.head? = some c → isWs c = false) :
    pyStrip (pre ++ core ++ post) = core := by
  obtain ⟨c0, rest, rfl⟩ := List.exists_cons_of_ne_nil hne
  have hc0 : isWs c0 = false := hh c0 rfl
  unfold pyStrip
  rw [List.append_assoc, dropWhile_append_all hpre, List.cons_append,
      List.dropWhile_cons_of_neg (by simp [hc0])]
  have hrevlist : (c0 :: (rest ++ post)).reverse = post.reverse ++ (c0 :: rest).reverse := by
    rw [List.reverse_cons, List.reverse_append, List.reverse_cons, List.append_assoc]
  rw [hrevlist, dropWhile_append_all fun c hc => hpost c (List.mem_reverse.mp hc)]
  cases hrev : (c0 :: rest).reverse with
  | nil => exact absurd hrev (by simp)
  | cons cL ys =>
    have hcL : isWs cL = false := hl cL (by rw [hrev]; rfl)
    rw [List.dropWhile_cons_of_neg (by simp [hcL]), ← hrev, List.reverse_reverse]

/-! ### Digit-string evaluation -/

theorem pyDigitsCore_digits {cs : List Char} (h : ∀ c ∈ cs, isDig c = true) (acc : Nat) :
    pyDigitsCore true acc cs = some (cs.foldl (fun a c => a * 10 + charVal c) acc) := by
  induction cs generalizing acc with
  | nil => rfl
  | cons c t ih =>
    have hc : isDig c = true := h c (List.mem_cons_self c t)
    rw [List.foldl_cons]
    simp only [pyDigitsCore, hc, if_true]
    exact ih (fun x hx => h x (List.mem_cons_of_mem c hx)) _

theorem natRepr_eq (n : Nat) : natRepr n =
    if n < 10 then [Char.ofNat (48 + n)]
    else natRepr (n / 10) ++ [Char.ofNat (48 + n % 10)] := by
  conv_lhs => rw [natRepr]
  by_cases h : n < 10 <;> simp [h]

theorem natRepr_ne_nil (n : Nat) : natRepr n ≠ [] := by
  rw [natRepr_eq]
  by_cases h : n < 10 <;> simp [h]

theorem natRepr_digits (n : Nat) : ∀ c ∈ natRepr n, isDig c = true := by
  induction n using Nat.strong_induction_on with
  | _ n ih =>
    intro c hc
    rw [natRepr_eq] at hc
    by_cases h : n < 10
    · rw [if_pos h] at hc
      simp only [List.mem_singleton] at hc
      subst hc
      interval_cases n <;> decide
    · rw [if_neg h] at hc
      rcases List.mem_append.mp hc with hc | hc
      · exact ih (n / 10) (Nat.div_lt_self (by omega) (by omega)) c hc
      · simp only [List.mem_singleton] at hc
        subst hc
        have hm : n % 10 < 10 := Nat.mod_lt _ (by omega)
        set m := n % 10 with hmm
        interval_cases m <;> decide

theorem foldl_val_natRepr (n : Nat) : ∀ acc : Nat,
    (natRepr n).foldl (fun a c => a * 10 + charVal c) acc
      = acc * 10 ^ (natRepr n).length + n := by
  induction n using Nat.strong_induction_on with
  | _ n ih =>
    intro acc
    rw [natRepr_eq]
    by_cases h : n < 10
    · rw [if_pos h]
      have hcv : charVal (Char.ofNat (48 + n)) = n := by
        interval_cases n <;> decide
      simp [hcv]
    · rw [if_neg h]
      rw [List.foldl_append, ih (n / 10) (Nat.div_lt_self (by omega) (by omega)) acc]
      have hm : n % 10 < 10 := Nat.mod_lt _ (by omega)
      have hcv : charVal (Char.ofNat (48 + n % 10)) = n % 10 := by
        set m := n % 10 with hmm
        interval_cases m <;> decide
      simp only [List.foldl_cons, List.foldl_nil, List.length_append,
        List.length_singleton, hcv]
      rw [pow_succ]
      have hdm : n / 10 * 10 + n % 10 = n := by omega
      calc (acc * 10 ^ (natRepr (n / 10)).length + n / 10) * 10 + n % 10
          = acc * (10 ^ (natRepr (n / 10)).length * 10) + (n / 10 * 10 + n % 10) := by ring
        _ = acc * (10 ^ (natRepr (n / 10)).length * 10) + n := by rw [hdm]

theorem pyDigitsChars_natRepr (n : Nat) : pyDigitsChars (natRepr n) = some n := by
  cases hr : natRepr n with
  | nil => exact absurd hr (natRepr_ne_nil n)
  | cons c rest =>
    have hdig := natRepr_digits n
    rw [hr] at hdig
    have hc : isDig c = true := hdig c (List.mem_cons_self c rest)
    simp only [pyDigitsChars, hc, if_true]
    rw [pyDigitsCore_digits fun x hx => hdig x (List.mem_cons_of_mem c hx)]
    have h0 := foldl_val_natRepr n 0
    rw [hr, List.foldl_cons] at h0
    simp only [Nat.zero_mul, Nat.zero_add] at h0
    rw [h0]

/-! ### `pythonInt` on rendered numbers -/

theorem pyStrip_natRepr_pad {pre post : List Char}
    (hpre : ∀ c ∈ pre, isWs c = true) (hpost : ∀ c ∈ post, isWs c = true) (n : Nat) :
    pyStrip (pre ++ natRepr n ++ post) = natRepr n := by
  refine pyStrip_sandwich pre (natRepr n) post hpre hpost (natRepr_ne_nil n) ?_ ?_
  · intro c hc
    exact not_ws_of_isDig (natRepr_digits n c (mem_of_head? hc))
  · intro c hc
    exact not_ws_of_isDig (natRepr_digits n c (List.mem_reverse.mp (mem_of_head? hc)))

theorem pythonInt_pad (pre post : List Char)
    (hpre : ∀ c ∈ pre, isWs c = true) (hpost : ∀ c ∈ post, isWs c = true) (n : Nat) :
    pythonInt (pre ++ natRepr n ++ post) = some (n : Int) := by
  unfold pythonInt
  rw [pyStrip_natRepr_pad hpre hpost]
  cases hr : natRepr n with
  | nil => exact absurd hr (natRepr_ne_nil n)
  | cons c rest =>
    have hdig := natRepr_digits n
    rw [hr] at hdig
    have hc : isDig c = true := hdig c (List.mem_cons_self c rest)
    have hplus : ¬(c = '+') := ne_plus_of_isDig hc
    have hdash : ¬(c = '-') := ne_dash_of_isDig hc
    simp only [pyIntStripped, if_neg hplus, if_neg hdash]
    rw [← hr, pyDigitsChars_natRepr]
    rfl

theorem pythonInt_natRepr (n : Nat) : pythonInt (natRepr n) = some (n : Int) := by
  have h := pythonInt_pad [] []
    (fun c hc => absurd hc (List.not_mem_nil c))
    (fun c hc => absurd hc (List.not_mem_nil c)) n
  simpa using h

/-! ### Splitting on the first dash -/

theorem takeWhile_append_dash {l1 : List Char} (h : ∀ c ∈ l1, c ≠ '-')
    (l2 : List Char) :
    (l1 ++ '-' :: l2).takeWhile (fun c => c != '-') = l1 := by
  induction l1 with
  | nil => simp
  | cons a t ih =>
    have ha : (a != '-') = true := by
      simp [h a (List.mem_cons_self a t)]
    rw [List.cons_append, List.takeWhile_cons, ha]
    simp only [if_true]
    rw [ih fun c hc => h c (List.mem_cons_of_mem a hc)]

theorem drop_after_dash (l1 l2 : List Char) :
    (l1 ++ '-' :: l2).drop (l1.length + 1) = l2 := by
  induction l1 with
  | nil => simp
  | cons a t ih => simpa using ih

/-! ### `parse_days_range` on valid inputs -/

theorem parse_single_pad {pre post : List Char}
    (hpre : ∀ c ∈ pre, isWs c = true) (hpost : ∀ c ∈ post, isWs c = true)
    {k : Int} (hk : 1 ≤ k) :
    parse_days_range (String.mk (pre ++ natRepr k.toNat ++ post)) = some (k, k) := by
  have hstrip : pyStrip (String.mk (pre ++ natRepr k.toNat ++ post)).data
      = natRepr k.toNat := pyStrip_natRepr_pad hpre hpost k.toNat
  have hnd : '-' ∉ natRepr k.toNat := fun hm =>
    ne_dash_of_isDig (natRepr_digits k.toNat '-' hm) rfl
  have hki : ((k.toNat : Int)) = k := Int.toNat_of_nonneg (by omega)
  unfold parse_days_range
  simp only [hstrip]
  rw [if_neg hnd, pythonInt_natRepr, hki]
  show (if k < 1 then none else some (k, k)) = some (k, k)
  rw [if_neg (by omega)]

theorem parse_range_ws (m1 m2 : List Char)
    (hm1 : ∀ c ∈ m1, isWs c = true) (hm2 : ∀ c ∈ m2, isWs c = true)
    {a b : Int} (ha : 1 ≤ a) (hab : a ≤ b) :
    parse_days_range
      (String.mk (natRepr a.toNat ++ m1 ++ '-' :: (m2 ++ natRepr b.toNat)))
      = some (a, b) := by
  have hhd : (natRepr a.toNat ++ m1 ++ '-' :: (m2 ++ natRepr b.toNat)).head?
      = (natRepr a.toNat).head? := by
    rw [List.append_assoc]
    exact head?_append_left (natRepr_ne_nil a.toNat) _
  have hrevhd : (natRepr a.toNat ++ m1 ++ '-' :: (m2 ++ natRepr b.toNat)).reverse.head?
      = (natRepr b.toNat).reverse.head? := by
    rw [List.reverse_append, List.reverse_cons, List.reverse_append,
      List.append_assoc, List.append_assoc]
    refine head?_append_left ?_ _
    simp [natRepr_ne_nil b.toNat]
  have hcore_ne : natRepr a.toNat ++ m1 ++ '-' :: (m2 ++ natRepr b.toNat) ≠ [] := by
    simp
  have hstrip : pyStrip
      (String.mk (natRepr a.toNat ++ m1 ++ '-' :: (m2 ++ natRepr b.toNat))).data
      = natRepr a.toNat ++ m1 ++ '-' :: (m2 ++ natRepr b.toNat) := by
    show pyStrip (natRepr a.toNat ++ m1 ++ '-' :: (m2 ++ natRepr b.toNat))
      = natRepr a.toNat ++ m1 ++ '-' :: (m2 ++ natRepr b.toNat)
    have h := pyStrip_sandwich []
      (natRepr a.toNat ++ m1 ++ '-' :: (m2 ++ natRepr b.toNat)) []
      (fun c hc => absurd hc (List.not_mem_nil c))
      (fun c hc => absurd hc (List.not_mem_nil c))
      hcore_ne
      (fun c hc => by
        rw [hhd] at hc
        exact not_ws_of_isDig (natRepr_digits a.toNat c (mem_of_head? hc)))
      (fun c hc => by
        rw [hrevhd] at hc
        exact not_ws_of_isDig
          (natRepr_digits b.toNat c (List.mem_reverse.mp (mem_of_head? hc))))
    simpa using h
  have hdash_mem : '-' ∈ natRepr a.toNat ++ m1 ++ '-' :: (m2 ++ natRepr b.toNat) := by
    simp
  have hLne : ∀ c ∈ natRepr a.toNat ++ m1, c ≠ '-' := by
    intro c hc
    rcases List.mem_append.mp hc with hc | hc
    · exact ne_dash_of_isDig (natRepr_digits a.toNat c hc)
    · exact ws_ne_dash (hm1 c hc)
  have hlow : lowTok (natRepr a.toNat ++ m1 ++ '-' :: (m2 ++ natRepr b.toNat))
      = natRepr a.toNat ++ m1 := takeWhile_append_dash hLne _
  have hhigh : highTok (natRepr a.toNat ++ m1 ++ '-' :: (m2 ++ natRepr b.toNat))
      = m2 ++ natRepr b.toNat := by
    unfold highTok
    rw [hlow]
    exact drop_after_dash _ _
  have hpa : pythonInt (natRepr a.toNat ++ m1) = some ((a.toNat : Int)) := by
    have h := pythonInt_pad [] m1
      (fun c hc => absurd hc (List.not_mem_nil c)) hm1 a.toNat
    simpa using h
  have hpb : pythonInt (m2 ++ natRepr b.toNat) = some ((b.toNat : Int)) := by
    have h := pythonInt_pad m2 []
      hm2 (fun c hc => absurd hc (List.not_mem_nil c)) b.toNat
    simpa using h
  have hai : ((a.toNat : Int)) = a := Int.toNat_of_nonneg (by omega)
  have hbi : ((b.toNat : Int)) = b := Int.toNat_of_nonneg (by omega)
  unfold parse_days_range
  simp only [hstrip]
  rw [if_pos hdash_mem, hlow, hhigh, hpa, hpb, hai, hbi]
  show (if b < a then none else if a < 1 then none else some (a, b)) = some (a, b)
  rw [if_neg (by omega), if_neg (by omega)]

/-! ### Claim theorems (C6, C7, C8, C9) -/

/-- C6: parsing the canonical digit string of `k ≥ 1`, with any surrounding
whitespace, yields `(k, k)`; parsing `"a-b"` for `1 ≤ a ≤ b` yields `(a, b)`. -/
theorem parse_valid_inputs (k a b : Int) (pre post : List Char)
    (hk : 1 ≤ k) (ha : 1 ≤ a) (hab : a ≤ b)
    (hpre : ∀ c ∈ pre, isWs c = true) (hpost : ∀ c ∈ post, isWs c = true) :
    parse_days_range (String.mk (pre ++ natRepr k.toNat ++ post)) = some (k, k) ∧
    parse_days_range (String.mk (natRepr a.toNat ++ '-' :: natRepr b.toNat))
      = some (a, b) := by
  constructor
  · exact parse_single_pad hpre hpost hk
  · have h := parse_range_ws [] []
      (fun c hc => absurd hc (List.not_mem_nil c))
      (fun c hc => absurd hc (List.not_mem_nil c)) ha hab
    simpa using h

/-- Closed instance of `parse_valid_inputs`: `" 3"` and `"1-5"`. -/
theorem parse_valid_inputs_witness :
    parse_days_range (String.mk ([' '] ++ natRepr (3 : Int).toNat ++ [])) = some (3, 3) ∧
    parse_days_range (String.mk (natRepr (1 : Int).toNat ++ '-' :: natRepr (5 : Int).toNat))
      = some (1, 5) :=
  parse_valid_inputs 3 1 5 [' '] [] (by decide) (by decide) (by decide)
    (by decide) (by decide)

/-- C7: whenever both tokens of a dashed input convert as integers and the
first exceeds the second, parsing returns the invalid result — the reject
policy, applied to every such input, never a swap. -/
theorem parse_rejects_inverted_range (text : String) (lv hv : Int)
    (hc : '-' ∈ pyStrip text.data)
    (hlo : pythonInt (lowTok (pyStrip text.data)) = some lv)
    (hhi : pythonInt (highTok (pyStrip text.data)) = some hv)
    (hgt : hv < lv) :
    parse_days_range text = none := by
  unfold parse_days_range
  rw [if_pos hc, hlo, hhi]
  show (if hv < lv then none else if lv < 1 then none else some (lv, hv)) = none
  rw [if_pos hgt]

/-- Closed instance of `parse_rejects_inverted_range`: `"5-3"`. -/
theorem parse_rejects_inverted_range_witness : parse_days_range "5-3" = none :=
  parse_rejects_inverted_range "5-3" 5 3 (by decide) (by decide) (by decide)
    (by decide)

/-- C8: parsing is total with an explicit failure result: every outcome is
either `none` or a validated `some (lo, hi)` with `1 ≤ lo ≤ hi`; a
non-integer token (in either branch) forces `none`, and so does a converted
low bound below 1. -/
theorem parse_total_and_rejects (text : String) :
    (parse_days_range text = none ∨
      ∃ lo hi, parse_days_range text = some (lo, hi) ∧ 1 ≤ lo ∧ lo ≤ hi) ∧
    ('-' ∈ pyStrip text.data →
      (pythonInt (lowTok (pyStrip text.data)) = none ∨
        pythonInt (highTok (pyStrip text.data)) = none) →
      parse_days_range text = none) ∧
    ('-' ∉ pyStrip text.data → pythonInt (pyStrip text.data) = none →
      parse_days_range text = none) ∧
    (∀ lv, '-' ∈ pyStrip text.data →
      pythonInt (lowTok (pyStrip text.data)) = some lv → lv < 1 →
      parse_days_range text = none) ∧
    (∀ v, '-' ∉ pyStrip text.data → pythonInt (pyStrip text.data) = some v →
      v < 1 → parse_days_range text = none) := by
  refine ⟨?_, ?_, ?_, ?_, ?_⟩
  · unfold parse_days_range
    by_cases hdash : '-' ∈ pyStrip text.data
    · rw [if_pos hdash]
      cases hl : pythonInt (lowTok (pyStrip text.data)) with
      | none => exact Or.inl rfl
      | some lv =>
        cases hh : pythonInt (highTok (pyStrip text.data)) with
        | none => exact Or.inl rfl
        | some hv =>
          by_cases h1 : hv < lv
          · refine Or.inl ?_
            show (if hv < lv then none else if lv < 1 then none else some (lv, hv))
              = none
            rw [if_pos h1]
          · by_cases h2 : lv < 1
            · refine Or.inl ?_
              show (if hv < lv then none else if lv < 1 then none else some (lv, hv))
                = none
              rw [if_neg h1, if_pos h2]
            · refine Or.inr ⟨lv, hv, ?_, by omega, by omega⟩
              show (if hv < lv then none else if lv < 1 then none else some (lv, hv))
                = some (lv, hv)
              rw [if_neg h1, if_neg h2]
    · rw [if_neg hdash]
      cases hv : pythonInt (pyStrip text.data) with
      | none => exact Or.inl rfl
      | some v =>
        by_cases h2 : v < 1
        · refine Or.inl ?_
          show (if v < 1 then none else some (v, v)) = none
          rw [if_pos h2]
        · refine Or.inr ⟨v, v, ?_, by omega, le_refl v⟩
          show (if v < 1 then none else some (v, v)) = some (v, v)
          rw [if_neg h2]
  · intro hdash hnone
    unfold parse_days_range
    rw [if_pos hdash]
    rcases hnone with h | h
    · rw [h]
    · rw [h]
      cases pythonInt (lowTok (pyStrip text.data)) <;> rfl
  · intro hdash hnone
    unfold parse_days_range
    rw [if_neg hdash, hnone]
  · intro lv hdash hlo hlow1
    unfold parse_days_range
    rw [if_pos hdash, hlo]
    cases hh : pythonInt (highTok (pyStrip text.data)) with
    | none => rfl
    | some hv =>
      show (if hv < lv then none else if lv < 1 then none else some (lv, hv)) = none
      by_cases h1 : hv < lv
      · rw [if_pos h1]
      · rw [if_neg h1, if_pos hlow1]
  · intro v hdash hv hv1
    unfold parse_days_range
    rw [if_neg hdash, hv]
    show (if v < 1 then none else some (v, v)) = none
    rw [if_pos hv1]

/-- Closed instances of `parse_total_and_rejects`: non-integer input `"abc"`
and zero low bound `"0-5"`. -/
theorem parse_total_and_rejects_witness :
    parse_days_range "abc" = none ∧ parse_days_range "0-5" = none := by
  refine ⟨?_, ?_⟩
  · exact (parse_total_and_rejects "abc").2.2.1 (by decide) (by decide)
  · exact (parse_total_and_rejects "0-5").2.2.2.1 0 (by decide) (by decide)
      (by decide)

/-- C9 counterexample: the claim predicts that `"1 - 5"` is rejected, but the
code accepts it, because Python `int` trims whitespace around each split
token: it parses to `(1, 5)`. -/
theorem internal_ws_accepted_cex : parse_days_range "1 - 5" = some (1, 5) := by
  decide

/-- C9 amended: whitespace around the whole input is trimmed, and in the range
branch the integer conversion additionally trims whitespace around each
token, so dashed inputs whose tokens carry surrounding whitespace are
accepted: any whitespace runs around the dash are ignored and the digit
tokens parsed. No normalization beyond whitespace trimming is performed. -/
theorem token_ws_trimmed (a b : Int) (m1 m2 : List Char)
    (ha : 1 ≤ a) (hab : a ≤ b)
    (hm1 : ∀ c ∈ m1, isWs c = true) (hm2 : ∀ c ∈ m2, isWs c = true) :
    parse_days_range
      (String.mk (natRepr a.toNat ++ m1 ++ '-' :: (m2 ++ natRepr b.toNat)))
      = some (a, b) :=
  parse_range_ws m1 m2 hm1 hm2 ha hab

/-- Closed instance of `token_ws_trimmed`: the counterexample input
`"1 - 5"` in rendered form. -/
theorem token_ws_trimmed_witness :
    parse_days_range
      (String.mk (natRepr (1 : Int).toNat ++ [' '] ++ '-' :: ([' '] ++ natRepr (5 : Int).toNat)))
      = some (1, 5) :=
  token_ws_trimmed 1 5 [' '] [' '] (by decide) (by decide) (by decide) (by decide)

end BuryNDays
